import Mathlib

set_option maxRecDepth 100000

/-!
# Verification of `beancount/core/compare.py`

A shallow embedding of the stable-hashing and set-comparison engine of
`beancount.core.compare`:

* `md5Hex` — a faithful, executable model of `hashlib.md5(...).hexdigest()`
  over byte lists (RFC 1321), so that digest equality and inequality are
  decidable on concrete inputs.
* `PyVal` / `Entry` — the data model: namedtuple-like records whose fields
  are scalars, nested records, or lists/sets.
* `stable_hash_namedtuple`, `hash_entry`, `hash_entries`,
  `compare_entries`, `includes_entries`, `excludes_entries` — the
  operations of the source file, translated line by line.

Modelling conventions:
* Machine strings are Lean `String`s; `str(x).encode()` is modelled by
  `strBytes`, mapping each character to its code point (all concrete
  values used here are ASCII, where this is exactly UTF-8).
* A scalar `PyVal.scalar s` models a Python value whose `str` and `repr`
  are both `s` (integers, for instance).
* Python `dict` is modelled by an insertion-ordered association list where
  updating an existing key replaces the value in place (`updateA`).
* `sorted(set_of_strings)` is modelled by `sortedSet`: deduplicate, then
  sort by the lexicographic order on strings (which for the hex digests
  produced here coincides with Python's code-point string order).
* Raising `ValueError` is modelled by `Except CompareError`.
* Python `set` difference/intersection over digest key sets is modelled by
  filtering the first operand's key list (dict keys are distinct, and the
  results are only consumed through membership, emptiness, and a final
  sort, none of which depend on iteration order).
* The external sort key `entry_sortkey` (from `beancount.core.data`, not
  part of this file) is an abstract comparison parameter `le`; Python's
  stable `sorted` is modelled by `List.insertionSort`.
-/

/-! ## MD5 (RFC 1321) over lists of bytes -/

/-- Reduce modulo `2^32`. -/
def m32 (n : Nat) : Nat := n % 4294967296

/-- Left-rotate a 32-bit value by `s` bits. -/
def rotl32 (x s : Nat) : Nat := m32 (x <<< s) ||| (x >>> (32 - s))

/-- The 64 MD5 sine-derived constants `K[i] = floor(2^32 * |sin(i+1)|)`. -/
def md5K : List Nat :=
  [0xd76aa478, 0xe8c7b756, 0x242070db, 0xc1bdceee,
   0xf57c0faf, 0x4787c62a, 0xa8304613, 0xfd469501,
   0x698098d8, 0x8b44f7af, 0xffff5bb1, 0x895cd7be,
   0x6b901122, 0xfd987193, 0xa679438e, 0x49b40821,
   0xf61e2562, 0xc040b340, 0x265e5a51, 0xe9b6c7aa,
   0xd62f105d, 0x02441453, 0xd8a1e681, 0xe7d3fbc8,
   0x21e1cde6, 0xc33707d6, 0xf4d50d87, 0x455a14ed,
   0xa9e3e905, 0xfcefa3f8, 0x676f02d9, 0x8d2a4c8a,
   0xfffa3942, 0x8771f681, 0x6d9d6122, 0xfde5380c,
   0xa4beea44, 0x4bdecfa9, 0xf6bb4b60, 0xbebfbc70,
   0x289b7ec6, 0xeaa127fa, 0xd4ef3085, 0x04881d05,
   0xd9d4d039, 0xe6db99e5, 0x1fa27cf8, 0xc4ac5665,
   0xf4292244, 0x432aff97, 0xab9423a7, 0xfc93a039,
   0x655b59c3, 0x8f0ccc92, 0xffeff47d, 0x85845dd1,
   0x6fa87e4f, 0xfe2ce6e0, 0xa3014314, 0x4e0811a1,
   0xf7537e82, 0xbd3af235, 0x2ad7d2bb, 0xeb86d391]

/-- The 64 per-round left-rotation amounts. -/
def md5S : List Nat :=
  [7, 12, 17, 22, 7, 12, 17, 22, 7, 12, 17, 22, 7, 12, 17, 22,
   5, 9, 14, 20, 5, 9, 14, 20, 5, 9, 14, 20, 5, 9, 14, 20,
   4, 11, 16, 23, 4, 11, 16, 23, 4, 11, 16, 23, 4, 11, 16, 23,
   6, 10, 15, 21, 6, 10, 15, 21, 6, 10, 15, 21, 6, 10, 15, 21]

/-- One MD5 round: `M` are the 16 message words of the current chunk. -/
def md5Round (M : List Nat) (st : Nat × Nat × Nat × Nat) (i : Nat) :
    Nat × Nat × Nat × Nat :=
  let (a, b, c, d) := st
  let fg : Nat × Nat :=
    if i < 16 then ((b &&& c) ||| ((b ^^^ 4294967295) &&& d), i)
    else if i < 32 then ((d &&& b) ||| ((d ^^^ 4294967295) &&& c), (5 * i + 1) % 16)
    else if i < 48 then (b ^^^ c ^^^ d, (3 * i + 5) % 16)
    else (c ^^^ (b ||| (d ^^^ 4294967295)), (7 * i) % 16)
  let f := m32 (fg.1 + a + md5K.getD i 0 + M.getD fg.2 0)
  (d, m32 (b + rotl32 f (md5S.getD i 0)), b, c)

/-- The 8 little-endian bytes of the bit length, as appended by MD5 padding. -/
def md5LenBytes (len : Nat) : List Nat :=
  (List.range 8).map (fun i => (len * 8) % 18446744073709551616 / 256 ^ i % 256)

/-- MD5 padding: append `0x80`, zero bytes up to 56 mod 64, then the length. -/
def md5Pad (msg : List Nat) : List Nat :=
  msg ++ [128] ++ List.replicate ((119 - msg.length % 64) % 64) 0
      ++ md5LenBytes msg.length

/-- Split a byte list into 64-byte chunks. -/
def chunks64 (l : List Nat) : List (List Nat) :=
  (List.range ((l.length + 63) / 64)).map (fun i => (l.drop (64 * i)).take 64)

/-- The 16 little-endian 32-bit words of one 64-byte chunk. -/
def chunkWords (c : List Nat) : List Nat :=
  (List.range 16).map (fun j =>
    c.getD (4 * j) 0 + 256 * c.getD (4 * j + 1) 0
      + 65536 * c.getD (4 * j + 2) 0 + 16777216 * c.getD (4 * j + 3) 0)

/-- Process one 64-byte chunk against the running MD5 state. -/
def md5Chunk (st : Nat × Nat × Nat × Nat) (chunk : List Nat) :
    Nat × Nat × Nat × Nat :=
  let M := chunkWords chunk
  let r := (List.range 64).foldl (md5Round M) st
  (m32 (st.1 + r.1), m32 (st.2.1 + r.2.1), m32 (st.2.2.1 + r.2.2.1),
   m32 (st.2.2.2 + r.2.2.2))

/-- The MD5 state after hashing a whole (padded) message. -/
def md5Nat (msg : List Nat) : Nat × Nat × Nat × Nat :=
  (chunks64 (md5Pad msg)).foldl md5Chunk
    (1732584193, 4023233417, 2562383102, 271733878)

/-- Lowercase hexadecimal digit. -/
def hexChar (n : Nat) : Char :=
  Char.ofNat (if n < 10 then 48 + n else 87 + n)

/-- Two lowercase hex characters of one byte. -/
def byteHexChars (b : Nat) : List Char := [hexChar (b / 16), hexChar (b % 16)]

/-- The 8 hex characters of one 32-bit word, bytes in little-endian order. -/
def wordHexChars (w : Nat) : List Char :=
  byteHexChars (w % 256) ++ byteHexChars (w / 256 % 256)
    ++ byteHexChars (w / 65536 % 256) ++ byteHexChars (w / 16777216 % 256)

/-- `hashlib.md5(bytes).hexdigest()`: the 32-character lowercase hex digest. -/
def md5Hex (msg : List Nat) : String :=
  String.mk (wordHexChars (md5Nat msg).1 ++ wordHexChars (md5Nat msg).2.1
    ++ wordHexChars (md5Nat msg).2.2.1 ++ wordHexChars (md5Nat msg).2.2.2)

/-- `str.encode()` for the ASCII strings used here: code points as bytes. -/
def strBytes (s : String) : List Nat := s.data.map Char.toNat

/-! ## The data model: namedtuple-like records -/

/-- A Python value as `stable_hash_namedtuple` distinguishes them: a scalar
(anything that is neither a tuple nor a list/set, carried as its `str`
form), a namedtuple (type name and fields in declaration order), or a
list/set (elements in iteration order). -/
inductive PyVal where
  | scalar (s : String)
  | record (name : String) (fields : List (String × PyVal))
  | coll (elems : List PyVal)

mutual

/-- `str(v)`: scalars print as themselves, namedtuples as
`Name(field=value, ...)`, lists as `[v, ...]`. -/
def pyStr : PyVal → String
  | .scalar s => s
  | .record n fields => n ++ "(" ++ fieldReprs fields ++ ")"
  | .coll elems => "[" ++ elemReprs elems ++ "]"

/-- The comma-separated `field=value` parts of a namedtuple's `str`. -/
def fieldReprs : List (String × PyVal) → String
  | [] => ""
  | [(n, v)] => n ++ "=" ++ pyStr v
  | (n, v) :: rest => n ++ "=" ++ pyStr v ++ ", " ++ fieldReprs rest

/-- The comma-separated element parts of a list's `str`. -/
def elemReprs : List PyVal → String
  | [] => ""
  | [v] => pyStr v
  | v :: rest => pyStr v ++ ", " ++ elemReprs rest

end

/-! ## StableHasher: `stable_hash_namedtuple` -/

/-- Lexicographic comparison of code-point lists, Python's string order. -/
def lexLe : List Nat → List Nat → Bool
  | [], _ => true
  | _ :: _, [] => false
  | a :: as, b :: bs => if a < b then true else if b < a then false else lexLe as bs

/-- `a <= b` for Python strings: lexicographic on code points. -/
def strLe (a b : String) : Bool := lexLe (strBytes a) (strBytes b)

/-- `strLe` as a proposition, for use with `List.insertionSort`. -/
def StrLe (a b : String) : Prop := strLe a b = true

instance : DecidableRel StrLe := fun a b => by unfold StrLe; infer_instance

/-- `sorted(set_of_strings)`: the sorted deduplicated list, in the
lexicographic (code point) order of Python strings. -/
def sortedSet (l : List String) : List String :=
  l.dedup.insertionSort StrLe

/-- Concatenate the `encode()`d bytes of a list of digest strings, in
order, as the successive `hashobj.update(subhash.encode())` calls do. -/
def hexBytesConcat (l : List String) : List Nat :=
  (l.map strBytes).flatten

mutual

/-- The byte stream fed to the top-level `hashobj` by the loop of
`stable_hash_namedtuple` over the given fields: ignored fields are
skipped, each other field contributes `fieldBytes`. -/
def hashFields (ignore : List String) : List (String × PyVal) → List Nat
  | [] => []
  | (n, v) :: rest =>
      (if n ∈ ignore then [] else fieldBytes ignore v) ++ hashFields ignore rest

/-- The bytes one non-ignored field feeds to the accumulator: a list/set
contributes the sorted deduplicated sub-digests of its elements; any
other value (scalar or directly nested tuple) contributes
`str(value).encode()`. -/
def fieldBytes (ignore : List String) : PyVal → List Nat
  | .coll elems => hexBytesConcat (sortedSet (subDigests ignore elems))
  | v => strBytes (pyStr v)

/-- The sub-digest of each element of a list/set field: a recursive
`stable_hash_namedtuple` call for tuple elements (with the same ignore
set), the MD5 of `str(element)` otherwise. -/
def subDigests (ignore : List String) : List PyVal → List String
  | [] => []
  | e :: rest =>
      (match e with
       | .record _ f => md5Hex (hashFields ignore f)
       | v => md5Hex (strBytes (pyStr v))) :: subDigests ignore rest

end

/-- A directive: a namedtuple with a type name and named fields. -/
structure Entry where
  name : String
  fields : List (String × PyVal)

/-- `stable_hash_namedtuple(objtuple, ignore)`: the hex digest of the
accumulated byte stream over the record's fields. -/
def stable_hash_namedtuple (e : Entry) (ignore : List String) : String :=
  md5Hex (hashFields ignore e.fields)

/-- `hash_entry(entry)`. -/
def hash_entry (e : Entry) : String :=
  stable_hash_namedtuple e ["source", "entry", "diff_amount"]

/-! ## HashIndex: `hash_entries` -/

/-- `str(entry)` for a directive. -/
def entryStr (e : Entry) : String := pyStr (.record e.name e.fields)

/-- `entry.source`: the value of the `source` attribute, when present. -/
def entrySource (e : Entry) : Option PyVal :=
  (e.fields.find? (fun p => p.1 == "source")).map Prod.snd

/-- `CompareError = namedtuple('CompareError', 'source message entry')`. -/
structure CompareError where
  source : Option PyVal
  message : String
  entry : Entry

/-- The duplicate-entry error appended by `hash_entries`, referencing the
current entry and the previously stored one. -/
def mkError (e other : Entry) : CompareError :=
  ⟨entrySource e, "Duplicate entry: " ++ entryStr e ++ " == " ++ entryStr other, e⟩

/-- `dict[h]` lookup on an insertion-ordered association list. -/
def lookupA (h : String) : List (String × Entry) → Option Entry
  | [] => none
  | (k, v) :: rest => if k == h then some v else lookupA h rest

/-- `dict[h] = e` when `h` is already a key: replace the value in place. -/
def updateA (h : String) (e : Entry) : List (String × Entry) → List (String × Entry)
  | [] => []
  | (k, v) :: rest => if k == h then (k, e) :: rest else (k, v) :: updateA h e rest

/-- The loop of `hash_entries`: for each entry, if its hash is already a
key, append a duplicate error and overwrite the mapping; otherwise insert
the new key at the end. -/
def hashLoop : List Entry → List (String × Entry) → List CompareError →
    List (String × Entry) × List CompareError
  | [], dict, errors => (dict, errors)
  | e :: rest, dict, errors =>
      match lookupA (hash_entry e) dict with
      | some other => hashLoop rest (updateA (hash_entry e) e dict)
          (errors ++ [mkError e other])
      | none => hashLoop rest (dict ++ [(hash_entry e, e)]) errors

/-- `hash_entries(entries)`: the digest→entry dict and the duplicate
errors, in input order. -/
def hash_entries (entries : List Entry) :
    List (String × Entry) × List CompareError :=
  hashLoop entries [] []

/-- The most recent entry among `es` whose digest is `h` — what the dict
stores for key `h` after processing `es`. -/
def lastWith (h : String) (es : List Entry) : Option Entry :=
  (es.filter (fun e => hash_entry e == h)).getLast?

/-- Specification of the duplicate errors: scanning `es` after having
already processed `processed`, one error per entry whose digest has
occurred before, referencing the latest earlier occurrence. -/
def specErrors (processed : List Entry) : List Entry → List CompareError
  | [] => []
  | e :: rest =>
      (match lastWith (hash_entry e) processed with
       | some other => [mkError e other]
       | none => []) ++ specErrors (processed ++ [e]) rest

/-! ## SetComparator: `compare_entries`, `includes_entries`, `excludes_entries` -/

/-- The keys of the dict, in insertion order. -/
def keysOf (d : List (String × Entry)) : List String := d.map Prod.fst

/-- `keys1 - keys2` on digest sets (dict keys are distinct). -/
def setDiff (k1 k2 : List String) : List String :=
  k1.filter (fun h => !(k2.contains h))

/-- `keys.intersection(subset_keys)` on digest sets. -/
def setInter (k1 k2 : List String) : List String :=
  k1.filter (fun h => k2.contains h)

/-- `[hashes[key] for key in keys]`: resolve digests back to entries. -/
def resolve (d : List (String × Entry)) (keys : List String) : List Entry :=
  keys.filterMap (fun k => lookupA k d)

/-- `sorted(entries, key=entry_sortkey)`: a stable sort by the external
canonical ordering, supplied as a boolean comparison `le`. -/
def sortEntries (le : Entry → Entry → Bool) (l : List Entry) : List Entry :=
  l.insertionSort (fun a b => le a b = true)

/-- `compare_entries(entries1, entries2)`; raising `ValueError` is the
`Except.error` case, carrying the raised `CompareError`. -/
def compare_entries (le : Entry → Entry → Bool) (entries1 entries2 : List Entry) :
    Except CompareError (Bool × List Entry × List Entry) :=
  match (hash_entries entries1).2 ++ (hash_entries entries2).2 with
  | err :: _ => .error err
  | [] =>
      let keys1 := keysOf (hash_entries entries1).1
      let keys2 := keysOf (hash_entries entries2).1
      let same := keys1.all (fun k => keys2.contains k)
        && keys2.all (fun k => keys1.contains k)
      let missing1 := sortEntries le
        (resolve (hash_entries entries1).1 (setDiff keys1 keys2))
      let missing2 := sortEntries le
        (resolve (hash_entries entries2).1 (setDiff keys2 keys1))
      .ok (same, missing1, missing2)

/-- `includes_entries(subset_entries, entries)`. -/
def includes_entries (le : Entry → Entry → Bool) (subset_entries entries : List Entry) :
    Except CompareError (Bool × List Entry) :=
  match (hash_entries subset_entries).2 ++ (hash_entries entries).2 with
  | err :: _ => .error err
  | [] =>
      let subset_keys := keysOf (hash_entries subset_entries).1
      let keys := keysOf (hash_entries entries).1
      let includes := subset_keys.all (fun k => keys.contains k)
      let missing := sortEntries le
        (resolve (hash_entries subset_entries).1 (setDiff subset_keys keys))
      .ok (includes, missing)

/-- `excludes_entries(subset_entries, entries)`. -/
def excludes_entries (le : Entry → Entry → Bool) (subset_entries entries : List Entry) :
    Except CompareError (Bool × List Entry) :=
  match (hash_entries subset_entries).2 ++ (hash_entries entries).2 with
  | err :: _ => .error err
  | [] =>
      let subset_keys := keysOf (hash_entries subset_entries).1
      let keys := keysOf (hash_entries entries).1
      let intersection := setInter keys subset_keys
      let excludes := intersection.isEmpty
      let extra := sortEntries le
        (resolve (hash_entries subset_entries).1 intersection)
      .ok (excludes, extra)

/-- The error raised by a comparison, when one is raised. -/
def raisedError {γ : Type} : Except CompareError γ → Option CompareError
  | .error e => some e
  | .ok _ => none

/-- The sub-digest of one element of a list/set field, as a plain
function: `subDigests` is its pointwise map. -/
def subDig (ignore : List String) : PyVal → String
  | .record _ f => md5Hex (hashFields ignore f)
  | v => md5Hex (strBytes (pyStr v))

instance : IsTotal String StrLe :=
  ⟨fun a b => by
    unfold StrLe strLe
    have h : ∀ as bs : List Nat, lexLe as bs = true ∨ lexLe bs as = true := by
      intro as
      induction as with
      | nil => intro bs; cases bs <;> simp [lexLe]
      | cons a as ih =>
        intro bs
        cases bs with
        | nil => simp [lexLe]
        | cons b bs =>
          rcases Nat.lt_trichotomy a b with hab | hab | hab
          · simp [lexLe, hab]
          · subst hab
            rcases ih bs with h | h <;> simp [lexLe, h]
          · simp [lexLe, hab, Nat.lt_asymm hab]
    exact h _ _⟩

instance : IsTrans String StrLe :=
  ⟨fun a b c hab hbc => by
    unfold StrLe strLe at *
    have h : ∀ as bs cs : List Nat, lexLe as bs = true → lexLe bs cs = true →
        lexLe as cs = true := by
      intro as
      induction as with
      | nil => intro bs cs _ _; simp [lexLe]
      | cons a as ih =>
        intro bs cs h1 h2
        cases bs with
        | nil => simp [lexLe] at h1
        | cons b bs =>
          cases cs with
          | nil => simp [lexLe] at h2
          | cons c cs =>
            rcases Nat.lt_trichotomy a b with hab | hab | hab
            · rcases Nat.lt_trichotomy b c with hbc | hbc | hbc
              · simp [lexLe, Nat.lt_trans hab hbc]
              · subst hbc; simp [lexLe, hab]
              · simp [lexLe, hab, Nat.lt_asymm hab] at h1 ⊢
                simp [lexLe, hbc, Nat.lt_asymm hbc] at h2
            · subst hab
              rcases Nat.lt_trichotomy a c with hbc | hbc | hbc
              · simp [lexLe, hbc]
              · subst hbc
                simp [lexLe, Nat.lt_irrefl] at h1 h2 ⊢
                exact ih _ _ h1 h2
              · simp [lexLe, hbc, Nat.lt_asymm hbc] at h2
            · simp [lexLe, hab, Nat.lt_asymm hab] at h1
    exact h _ _ _ hab hbc⟩

instance : IsAntisymm String StrLe :=
  ⟨fun a b hab hba => by
    unfold StrLe strLe at hab hba
    have h : ∀ as bs : List Nat, lexLe as bs = true → lexLe bs as = true →
        as = bs := by
      intro as
      induction as with
      | nil => intro bs h1 h2; cases bs with
        | nil => rfl
        | cons b bs => simp [lexLe] at h2
      | cons a as ih =>
        intro bs h1 h2
        cases bs with
        | nil => simp [lexLe] at h1
        | cons b bs =>
          rcases Nat.lt_trichotomy a b with hab' | hab' | hab'
          · simp [lexLe, hab', Nat.lt_asymm hab'] at h2
          · subst hab'
            simp [lexLe, Nat.lt_irrefl] at h1 h2
            exact congrArg _ (ih bs h1 h2)
          · simp [lexLe, hab', Nat.lt_asymm hab'] at h1
    have hbytes : strBytes a = strBytes b := h _ _ hab hba
    have hchar : Function.Injective Char.toNat := fun c d hcd => by
      apply Char.ext
      exact UInt32.toNat.inj hcd
    exact String.ext (List.map_injective_iff.mpr hchar hbytes)⟩

/-! ## Helper lemmas -/

/-- Sanity check against the RFC 1321 test suite: the empty message. -/
theorem md5Hex_rfc1321_empty :
    md5Hex (strBytes "") = "d41d8cd98f00b204e9800998ecf8427e" := by decide

/-- Sanity check against the RFC 1321 test suite: the message `abc`. -/
theorem md5Hex_rfc1321_abc :
    md5Hex (strBytes "abc") = "900150983cd24fb0d6963f7d28e17f72" := by decide

theorem subDigests_eq_map (ignore : List String) (l : List PyVal) :
    subDigests ignore l = l.map (subDig ignore) := by
  induction l with
  | nil => simp [subDigests]
  | cons e rest ih =>
    cases e <;> simp [subDigests, subDig, ih]

theorem hashFields_append (ignore : List String) (l1 l2 : List (String × PyVal)) :
    hashFields ignore (l1 ++ l2) = hashFields ignore l1 ++ hashFields ignore l2 := by
  induction l1 with
  | nil => simp [hashFields]
  | cons p rest ih =>
    obtain ⟨n, v⟩ := p
    simp [hashFields, ih]

theorem sortedSet_sorted (l : List String) : (sortedSet l).Sorted StrLe :=
  List.sorted_insertionSort StrLe l.dedup

theorem sortedSet_perm (l : List String) : List.Perm (sortedSet l) l.dedup :=
  List.perm_insertionSort StrLe l.dedup

theorem sortedSet_nodup (l : List String) : (sortedSet l).Nodup :=
  (sortedSet_perm l).nodup_iff.mpr l.nodup_dedup

theorem mem_sortedSet {x : String} {l : List String} :
    x ∈ sortedSet l ↔ x ∈ l := by
  rw [(sortedSet_perm l).mem_iff, List.mem_dedup]

/-- `sorted(set(...))` depends only on which strings occur. -/
theorem sortedSet_eq_of_mem_iff {l1 l2 : List String}
    (h : ∀ x, x ∈ l1 ↔ x ∈ l2) : sortedSet l1 = sortedSet l2 := by
  have hperm : List.Perm (sortedSet l1) (sortedSet l2) := by
    rw [List.perm_ext_iff_of_nodup (sortedSet_nodup l1) (sortedSet_nodup l2)]
    intro x
    rw [mem_sortedSet, mem_sortedSet]
    exact h x
  exact List.eq_of_perm_of_sorted hperm (sortedSet_sorted l1) (sortedSet_sorted l2)

theorem updateA_length (h : String) (e : Entry) (d : List (String × Entry)) :
    (updateA h e d).length = d.length := by
  induction d with
  | nil => rfl
  | cons p rest ih =>
    obtain ⟨k, v⟩ := p
    by_cases hk : k == h <;> simp [updateA, hk, ih]

theorem hashLoop_len (es : List Entry) : ∀ d errs,
    (hashLoop es d errs).1.length + (hashLoop es d errs).2.length
      = d.length + errs.length + es.length := by
  induction es with
  | nil => intro d errs; simp [hashLoop]
  | cons e rest ih =>
    intro d errs
    simp only [hashLoop]
    cases hl : lookupA (hash_entry e) d with
    | some other =>
      have := ih (updateA (hash_entry e) e d) (errs ++ [mkError e other])
      simp [updateA_length] at this
      simp [this]
      omega
    | none =>
      have := ih (d ++ [(hash_entry e, e)]) errs
      simp at this
      simp [this]
      omega

theorem lookupA_updateA {h : String} {d : List (String × Entry)}
    (hd : (lookupA h d).isSome) (e : Entry) (h' : String) :
    lookupA h' (updateA h e d) = if h' = h then some e else lookupA h' d := by
  induction d with
  | nil => simp [lookupA] at hd
  | cons p rest ih =>
    obtain ⟨k, v⟩ := p
    by_cases hk : k = h
    · subst hk
      by_cases hk' : k = h'
      · subst hk'
        simp [updateA, lookupA]
      · have h1 : (k == h') = false := beq_eq_false_iff_ne.mpr hk'
        have h2 : ¬ h' = k := fun hx => hk' hx.symm
        simp [updateA, lookupA, h1, h2]
    · have hkb : (k == h) = false := beq_eq_false_iff_ne.mpr hk
      simp only [lookupA, hkb, if_false, Bool.false_eq_true] at hd
      by_cases hk' : k = h'
      · subst hk'
        simp [updateA, hkb, lookupA, hk]
      · have hkb' : (k == h') = false := beq_eq_false_iff_ne.mpr hk'
        simp [updateA, hkb, lookupA, hkb', ih hd]

theorem lookupA_snoc (h' k : String) (e : Entry) (d : List (String × Entry)) :
    lookupA h' (d ++ [(k, e)])
      = match lookupA h' d with
        | some v => some v
        | none => if k == h' then some e else none := by
  induction d with
  | nil => simp [lookupA]
  | cons p rest ih =>
    obtain ⟨k0, v0⟩ := p
    by_cases hk : k0 == h' <;> simp [lookupA, hk, ih]

theorem lastWith_snoc (h : String) (e : Entry) (es : List Entry) :
    lastWith h (es ++ [e])
      = if hash_entry e == h then some e else lastWith h es := by
  unfold lastWith
  rw [List.filter_append]
  by_cases hh : hash_entry e == h
  · simp [hh, List.getLast?_concat]
  · simp [hh]

/-- The loop invariant of `hash_entries`: having already processed
`processed` (with the dict reflecting the latest entry for each digest),
running the loop over `es` appends exactly the specified duplicate errors
and leaves the dict mapping each digest to the latest entry bearing it. -/
theorem hashLoop_spec (es : List Entry) : ∀ processed d errs,
    (∀ h, lookupA h d = lastWith h processed) →
    (hashLoop es d errs).2 = errs ++ specErrors processed es
      ∧ (∀ h, lookupA h (hashLoop es d errs).1 = lastWith h (processed ++ es)) := by
  induction es with
  | nil =>
    intro processed d errs hinv
    constructor
    · simp [hashLoop, specErrors]
    · intro h
      simpa [hashLoop] using hinv h
  | cons e rest ih =>
    intro processed d errs hinv
    have hlook := (hinv (hash_entry e)).symm
    simp only [hashLoop]
    cases hl : lookupA (hash_entry e) d with
    | some other =>
      rw [hl] at hlook
      have hinv' : ∀ h, lookupA h (updateA (hash_entry e) e d)
          = lastWith h (processed ++ [e]) := by
        intro h
        rw [lookupA_updateA (by simp [hl]) e h, lastWith_snoc]
        by_cases hh : h = hash_entry e
        · simp [hh]
        · have hb : (hash_entry e == h) = false :=
            beq_eq_false_iff_ne.mpr (fun hx => hh hx.symm)
          simp [hh, hb, hinv h]
      obtain ⟨herr, hdict⟩ := ih (processed ++ [e]) _ _ hinv'
      constructor
      · rw [herr]
        simp only [specErrors]
        rw [hlook]
        simp
      · intro h
        rw [hdict h]
        simp
    | none =>
      rw [hl] at hlook
      have hinv' : ∀ h, lookupA h (d ++ [(hash_entry e, e)])
          = lastWith h (processed ++ [e]) := by
        intro h
        rw [lookupA_snoc, lastWith_snoc]
        cases hd : lookupA h d with
        | some v =>
          have hdp : lastWith h processed = some v := by rw [← hinv h]; exact hd
          by_cases hh : hash_entry e = h
          · subst hh
            rw [hlook] at hdp
            exact absurd hdp (by simp)
          · have hb : (hash_entry e == h) = false := beq_eq_false_iff_ne.mpr hh
            simp [hd, hb, hdp]
        | none =>
          have hdp : lastWith h processed = none := by rw [← hinv h]; exact hd
          by_cases hh : hash_entry e = h
          · subst hh
            simp [hd, hdp]
          · have hb : (hash_entry e == h) = false := beq_eq_false_iff_ne.mpr hh
            simp [hd, hb, hdp]
      obtain ⟨herr, hdict⟩ := ih (processed ++ [e]) _ _ hinv'
      constructor
      · rw [herr]
        simp only [specErrors]
        rw [hlook]
        simp
      · intro h
        rw [hdict h]
        simp

/-- C3: `hash_entries` returns an empty error list exactly when the index
has one key per input entry; the defensive `assert` can never fire. -/
theorem hash_entries_errors_empty_iff_index_full (es : List Entry) :
    (hash_entries es).2 = [] ↔ (hash_entries es).1.length = es.length := by
  have hlen := hashLoop_len es [] []
  simp only [List.length_nil, Nat.zero_add] at hlen
  unfold hash_entries
  constructor
  · intro h
    rw [h] at hlen
    simpa using hlen
  · intro h
    rw [h] at hlen
    have h0 : (hashLoop es [] []).2.length = 0 := by omega
    exact List.eq_nil_of_length_eq_zero h0

theorem hash_entries_spec (es : List Entry) :
    (hash_entries es).2 = specErrors [] es
      ∧ ∀ h, lookupA h (hash_entries es).1 = lastWith h es := by
  have h := hashLoop_spec es [] [] [] (fun h => by simp [lookupA, lastWith])
  simpa [hash_entries] using h

/-- C4: the error list is exactly one error per occurrence of a digest
that has already occurred, each referencing the current entry and the
latest previous entry with that digest; the index ends up one entry
smaller than the input per error; and each digest maps to the most
recently seen entry bearing it (last write wins). -/
theorem hash_entries_duplicate_accounting (es : List Entry) :
    (hash_entries es).2 = specErrors [] es
      ∧ (hash_entries es).1.length = es.length - (hash_entries es).2.length
      ∧ ∀ h, lookupA h (hash_entries es).1 = lastWith h es := by
  obtain ⟨herr, hdict⟩ := hash_entries_spec es
  refine ⟨herr, ?_, hdict⟩
  have hlen := hashLoop_len es [] []
  simp only [List.length_nil, Nat.zero_add] at hlen
  unfold hash_entries at *
  omega

theorem lastWith_eq_none_iff (h : String) (es : List Entry) :
    lastWith h es = none ↔ ∀ e ∈ es, hash_entry e ≠ h := by
  unfold lastWith
  rw [List.getLast?_eq_none_iff, List.filter_eq_nil_iff]
  simp

/-- Scanning from a processed prefix produces no error exactly when the
remaining digests are pairwise distinct and fresh. -/
theorem specErrors_eq_nil_iff (es : List Entry) : ∀ processed : List Entry,
    specErrors processed es = []
      ↔ (es.map hash_entry).Nodup
          ∧ ∀ e ∈ es, ∀ p ∈ processed, hash_entry p ≠ hash_entry e := by
  induction es with
  | nil => intro processed; simp [specErrors]
  | cons e rest ih =>
    intro processed
    simp only [specErrors, List.append_eq_nil]
    cases hm : lastWith (hash_entry e) processed with
    | some other =>
      have hmem : ¬ ∀ p ∈ processed, hash_entry p ≠ hash_entry e := by
        intro hall
        rw [(lastWith_eq_none_iff _ _).mpr hall] at hm
        exact Option.noConfusion hm
      constructor
      · rintro ⟨h1, _⟩
        exact absurd h1 (by simp)
      · rintro ⟨_, hall⟩
        exact absurd (fun p hp => hall e (by simp) p hp) hmem
    | none =>
      have hfresh : ∀ p ∈ processed, hash_entry p ≠ hash_entry e :=
        (lastWith_eq_none_iff _ _).mp hm
      rw [ih (processed ++ [e])]
      simp only [List.map_cons, List.nodup_cons, List.mem_map]
      constructor
      · rintro ⟨_, hnd, hall⟩
        refine ⟨⟨?_, hnd⟩, ?_⟩
        · rintro ⟨x, hx, hhx⟩
          exact hall x hx e (by simp) hhx.symm
        · intro x hx p hp
          rcases List.mem_cons.mp hx with rfl | hx'
          · exact hfresh p hp
          · exact hall x hx' p (by simp [hp])
      · rintro ⟨⟨hnotin, hnd⟩, hall⟩
        refine ⟨trivial, hnd, ?_⟩
        intro x hx p hp
        rcases List.mem_append.mp hp with hp' | hp'
        · exact hall x (by simp [hx]) p hp'
        · have : p = e := by simpa using hp'
          subst this
          intro hcon
          exact hnotin ⟨x, hx, hcon.symm⟩

/-- No duplicate error is produced exactly when all digests are distinct. -/
theorem hash_entries_errors_empty_iff_nodup (es : List Entry) :
    (hash_entries es).2 = [] ↔ (es.map hash_entry).Nodup := by
  rw [(hash_entries_spec es).1, specErrors_eq_nil_iff]
  simp

/-- C5: each of the three comparison operations raises exactly when one of
its two inputs contains a duplicate digest, and the raised error is the
first error of the first collection's error list followed by the
second's; no result is returned in that case (`Except` is error-only).
An error list is nonempty exactly when the collection has two entries
with equal digests. -/
theorem comparisons_fail_fast (le : Entry → Entry → Bool) (A B : List Entry) :
    raisedError (compare_entries le A B)
        = ((hash_entries A).2 ++ (hash_entries B).2).head?
      ∧ raisedError (includes_entries le A B)
        = ((hash_entries A).2 ++ (hash_entries B).2).head?
      ∧ raisedError (excludes_entries le A B)
        = ((hash_entries A).2 ++ (hash_entries B).2).head?
      ∧ ((hash_entries A).2 = [] ↔ (A.map hash_entry).Nodup)
      ∧ ((hash_entries B).2 = [] ↔ (B.map hash_entry).Nodup) := by
  refine ⟨?_, ?_, ?_, hash_entries_errors_empty_iff_nodup A,
    hash_entries_errors_empty_iff_nodup B⟩
  · unfold compare_entries
    cases hc : (hash_entries A).2 ++ (hash_entries B).2 <;> simp [raisedError]
  · unfold includes_entries
    cases hc : (hash_entries A).2 ++ (hash_entries B).2 <;> simp [raisedError]
  · unfold excludes_entries
    cases hc : (hash_entries A).2 ++ (hash_entries B).2 <;> simp [raisedError]

theorem hashFields_coll_congr (ignore : List String)
    (pre post : List (String × PyVal)) (n : String) {es1 es2 : List PyVal}
    (h : sortedSet (subDigests ignore es1) = sortedSet (subDigests ignore es2)) :
    hashFields ignore (pre ++ (n, .coll es1) :: post)
      = hashFields ignore (pre ++ (n, .coll es2) :: post) := by
  rw [hashFields_append, hashFields_append]
  simp only [hashFields, fieldBytes, hexBytesConcat]
  rw [h]

/-- C6: permuting the elements of a list/set field leaves the digest
unchanged — the sub-digests are collected into a set and sorted before
being folded. -/
theorem stable_hash_coll_perm_invariant (name : String) (ignore : List String)
    (pre post : List (String × PyVal)) (n : String) (es1 es2 : List PyVal)
    (hperm : List.Perm es1 es2) :
    stable_hash_namedtuple ⟨name, pre ++ (n, .coll es1) :: post⟩ ignore
      = stable_hash_namedtuple ⟨name, pre ++ (n, .coll es2) :: post⟩ ignore := by
  unfold stable_hash_namedtuple
  congr 1
  apply hashFields_coll_congr
  apply sortedSet_eq_of_mem_iff
  intro x
  rw [subDigests_eq_map, subDigests_eq_map]
  exact (hperm.map (subDig ignore)).mem_iff

theorem stable_hash_coll_perm_invariant_witness :
    stable_hash_namedtuple ⟨"T", [("tags", .coll [.scalar "x", .scalar "y"])]⟩ []
      = stable_hash_namedtuple ⟨"T", [("tags", .coll [.scalar "y", .scalar "x"])]⟩ [] :=
  stable_hash_coll_perm_invariant "T" [] [] [] "tags" _ _
    (List.Perm.swap (PyVal.scalar "y") (PyVal.scalar "x") [])

/-- C7: a repeated element of a list/set field contributes only once —
identical sub-digests are deduplicated before sorting and folding, so the
digest equals that of the record with the repetition removed. -/
theorem stable_hash_coll_dedups_repeats (name : String) (ignore : List String)
    (pre post : List (String × PyVal)) (n : String)
    (l1 l2 l3 : List PyVal) (e : PyVal) :
    stable_hash_namedtuple
        ⟨name, pre ++ (n, .coll (l1 ++ e :: l2 ++ e :: l3)) :: post⟩ ignore
      = stable_hash_namedtuple
        ⟨name, pre ++ (n, .coll (l1 ++ e :: l2 ++ l3)) :: post⟩ ignore := by
  unfold stable_hash_namedtuple
  congr 1
  apply hashFields_coll_congr
  apply sortedSet_eq_of_mem_iff
  intro x
  rw [subDigests_eq_map, subDigests_eq_map]
  constructor
  · rintro hx
    rcases List.mem_map.mp hx with ⟨a, ha, rfl⟩
    refine List.mem_map.mpr ⟨a, ?_, rfl⟩
    simp only [List.mem_append, List.mem_cons] at ha ⊢
    tauto
  · rintro hx
    rcases List.mem_map.mp hx with ⟨a, ha, rfl⟩
    refine List.mem_map.mpr ⟨a, ?_, rfl⟩
    simp only [List.mem_append, List.mem_cons] at ha ⊢
    tauto

/-- Fields that agree on names pointwise and on values of non-ignored
fields feed identical byte streams to the accumulator. -/
theorem hashFields_congr_ignore (ignore : List String) :
    ∀ {f1 f2 : List (String × PyVal)},
      List.Forall₂ (fun p q => p.1 = q.1 ∧ (p.1 ∉ ignore → p.2 = q.2)) f1 f2 →
      hashFields ignore f1 = hashFields ignore f2
  | [], [], _ => rfl
  | (n1, v1) :: r1, (n2, v2) :: r2, .cons ⟨hname, hval⟩ hrest => by
      have hn : n1 = n2 := hname
      subst hn
      simp only [hashFields]
      by_cases hmem : n1 ∈ ignore
      · simp [hmem, hashFields_congr_ignore ignore hrest]
      · have hv : v1 = v2 := hval hmem
        subst hv
        simp [hmem, hashFields_congr_ignore ignore hrest]

/-- C8: records identical except in the values of ignored top-level
fields hash identically; in particular `hash_entry` ignores `source`,
`entry` and `diff_amount`. -/
theorem stable_hash_ignores_ignored_fields (ignore : List String)
    (r1 r2 e1 e2 : Entry)
    (hr : List.Forall₂ (fun p q => p.1 = q.1 ∧ (p.1 ∉ ignore → p.2 = q.2))
      r1.fields r2.fields)
    (he : List.Forall₂
      (fun p q => p.1 = q.1
        ∧ (p.1 ∉ (["source", "entry", "diff_amount"] : List String) → p.2 = q.2))
      e1.fields e2.fields) :
    stable_hash_namedtuple r1 ignore = stable_hash_namedtuple r2 ignore
      ∧ hash_entry e1 = hash_entry e2 := by
  constructor
  · unfold stable_hash_namedtuple
    rw [hashFields_congr_ignore ignore hr]
  · unfold hash_entry stable_hash_namedtuple
    rw [hashFields_congr_ignore _ he]

theorem stable_hash_ignores_ignored_fields_witness :
    stable_hash_namedtuple ⟨"T", [("source", .scalar "1"), ("x", .scalar "7")]⟩ ["source"]
        = stable_hash_namedtuple ⟨"T", [("source", .scalar "2"), ("x", .scalar "7")]⟩ ["source"]
      ∧ hash_entry ⟨"T", [("diff_amount", .scalar "3"), ("x", .scalar "7")]⟩
        = hash_entry ⟨"T", [("diff_amount", .scalar "4"), ("x", .scalar "7")]⟩ :=
  stable_hash_ignores_ignored_fields ["source"]
    ⟨"T", [("source", .scalar "1"), ("x", .scalar "7")]⟩
    ⟨"T", [("source", .scalar "2"), ("x", .scalar "7")]⟩
    ⟨"T", [("diff_amount", .scalar "3"), ("x", .scalar "7")]⟩
    ⟨"T", [("diff_amount", .scalar "4"), ("x", .scalar "7")]⟩
    (.cons ⟨rfl, fun h => absurd (by simp) h⟩ (.cons ⟨rfl, fun _ => rfl⟩ .nil))
    (.cons ⟨rfl, fun h => absurd (by simp) h⟩ (.cons ⟨rfl, fun _ => rfl⟩ .nil))

/-- C1 fails on the code: a record field that is itself a record (not
inside a list/set) is folded as `str(value)`, not hashed recursively, so
a differing ignored field of the nested record changes the digest. -/
theorem nested_record_ignored_field_changes_digest :
    stable_hash_namedtuple
        ⟨"O", [("child", .record "I" [("source", .scalar "1"), ("x", .scalar "5")])]⟩
        ["source"]
      ≠ stable_hash_namedtuple
        ⟨"O", [("child", .record "I" [("source", .scalar "2"), ("x", .scalar "5")])]⟩
        ["source"] := by decide

/-- C1, amended: the recursion with the same ignore set applies to record
elements of a list/set field; for those, a differing ignored field of the
nested record leaves the outer digest unchanged. -/
theorem coll_record_element_ignored_field_irrelevant (name : String)
    (ignore : List String) (pre post : List (String × PyVal)) (n : String)
    (cpre cpost : List PyVal) (iname : String)
    (if1 if2 : List (String × PyVal))
    (h : List.Forall₂ (fun p q => p.1 = q.1 ∧ (p.1 ∉ ignore → p.2 = q.2)) if1 if2) :
    stable_hash_namedtuple
        ⟨name, pre ++ (n, .coll (cpre ++ .record iname if1 :: cpost)) :: post⟩ ignore
      = stable_hash_namedtuple
        ⟨name, pre ++ (n, .coll (cpre ++ .record iname if2 :: cpost)) :: post⟩ ignore := by
  unfold stable_hash_namedtuple
  congr 1
  apply hashFields_coll_congr
  rw [subDigests_eq_map, subDigests_eq_map, List.map_append, List.map_append]
  simp only [List.map_cons]
  have : subDig ignore (.record iname if1) = subDig ignore (.record iname if2) := by
    simp only [subDig]
    rw [hashFields_congr_ignore ignore h]
  rw [this]

theorem coll_record_element_ignored_field_irrelevant_witness :
    stable_hash_namedtuple
        ⟨"O", [("kids", .coll [.record "I" [("source", .scalar "1"), ("x", .scalar "5")]])]⟩
        ["source"]
      = stable_hash_namedtuple
        ⟨"O", [("kids", .coll [.record "I" [("source", .scalar "2"), ("x", .scalar "5")]])]⟩
        ["source"] :=
  coll_record_element_ignored_field_irrelevant "O" ["source"] [] [] "kids" [] [] "I"
    _ _ (.cons ⟨rfl, fun h => absurd (by simp) h⟩ (.cons ⟨rfl, fun _ => rfl⟩ .nil))

/-- C2 fails on the code: scalar fields are folded with no separator, so
shifting characters between adjacent scalar fields yields the same
accumulator input and deterministically the same digest for structurally
different records. -/
theorem adjacent_scalar_fields_collide :
    stable_hash_namedtuple ⟨"T", [("a", .scalar "ab"), ("b", .scalar "c")]⟩ []
        = stable_hash_namedtuple ⟨"T", [("a", .scalar "a"), ("b", .scalar "bc")]⟩ []
      ∧ PyVal.scalar "ab" ≠ PyVal.scalar "a" ∧ PyVal.scalar "c" ≠ PyVal.scalar "bc" := by
  refine ⟨by decide, by simp, by simp⟩

/-- C2, amended: distinct digests are guaranteed (up to MD5 collisions)
only for records whose folded accumulator byte streams differ; since
scalar fields are concatenated without a delimiter, moving characters
across an adjacent-field boundary never changes the digest. -/
theorem adjacent_scalar_fields_fold_without_separator
    (name fa fb : String) (s t u : String) :
    stable_hash_namedtuple ⟨name, [(fa, .scalar (s ++ t)), (fb, .scalar u)]⟩ []
      = stable_hash_namedtuple ⟨name, [(fa, .scalar s), (fb, .scalar (t ++ u))]⟩ [] := by
  unfold stable_hash_namedtuple
  congr 1
  simp [hashFields, fieldBytes, pyStr, strBytes]

theorem lookupA_eq_none_iff (h : String) (d : List (String × Entry)) :
    lookupA h d = none ↔ h ∉ keysOf d := by
  induction d with
  | nil => simp [lookupA, keysOf]
  | cons p rest ih =>
    obtain ⟨k, v⟩ := p
    by_cases hk : k = h
    · subst hk
      simp [lookupA, keysOf]
    · have h1 : (k == h) = false := beq_eq_false_iff_ne.mpr hk
      have hkeys : keysOf ((k, v) :: rest) = k :: keysOf rest := rfl
      rw [hkeys]
      simp only [lookupA, h1, Bool.false_eq_true, if_false, List.mem_cons, ih]
      constructor
      · intro hn hmem
        rcases hmem with hx | hx
        · exact hk hx.symm
        · exact hn hx
      · intro hn hx
        exact hn (Or.inr hx)

theorem lookupA_isSome_of_mem {h : String} {d : List (String × Entry)}
    (hm : h ∈ keysOf d) : (lookupA h d).isSome := by
  induction d with
  | nil => simp [keysOf] at hm
  | cons p rest ih =>
    obtain ⟨k, v⟩ := p
    by_cases hk : k = h
    · subst hk
      simp [lookupA]
    · have h1 : (k == h) = false := beq_eq_false_iff_ne.mpr hk
      have hm' : h ∈ keysOf rest := by
        rcases (by simpa [keysOf] using hm : h = k ∨ h ∈ keysOf rest) with hx | hx
        · exact absurd hx.symm hk
        · exact hx
      simp [lookupA, h1, ih hm']

/-- When every digest is fresh, the loop appends each entry keyed by its
digest and produces no error. -/
theorem hashLoop_all_fresh (es : List Entry) : ∀ d errs,
    (keysOf d ++ es.map hash_entry).Nodup →
    (hashLoop es d errs).1 = d ++ es.map (fun e => (hash_entry e, e))
      ∧ (hashLoop es d errs).2 = errs := by
  induction es with
  | nil =>
    intro d errs _
    simp [hashLoop]
  | cons e rest ih =>
    intro d errs hnd
    have hdisj := List.nodup_append.mp hnd
    have hnotin : hash_entry e ∉ keysOf d := by
      intro hmem
      exact hdisj.2.2 hmem (by simp)
    simp only [hashLoop]
    rw [(lookupA_eq_none_iff _ _).mpr hnotin]
    have hnd' : (keysOf (d ++ [(hash_entry e, e)]) ++ rest.map hash_entry).Nodup := by
      have : keysOf (d ++ [(hash_entry e, e)]) = keysOf d ++ [hash_entry e] := by
        simp [keysOf]
      rw [this, List.append_assoc]
      simpa using hnd
    obtain ⟨h1, h2⟩ := ih (d ++ [(hash_entry e, e)]) errs hnd'
    refine ⟨?_, h2⟩
    rw [h1]
    simp

theorem lookupA_pairs_self : ∀ {es : List Entry},
    (es.map hash_entry).Nodup → ∀ {e : Entry}, e ∈ es →
    lookupA (hash_entry e) (es.map (fun x => (hash_entry x, x))) = some e := by
  intro es
  induction es with
  | nil =>
    intro _ e he
    simp at he
  | cons a rest ih =>
    intro hnd e he
    rw [List.map_cons, List.nodup_cons] at hnd
    simp only [List.map_cons, lookupA]
    rcases List.mem_cons.mp he with rfl | he'
    · simp
    · have hne : hash_entry a ≠ hash_entry e := by
        intro hx
        exact hnd.1 (hx ▸ List.mem_map.mpr ⟨e, he', rfl⟩)
      have h1 : (hash_entry a == hash_entry e) = false := beq_eq_false_iff_ne.mpr hne
      simp only [h1, Bool.false_eq_true, if_false]
      exact ih hnd.2 he'

theorem resolve_cons_notin (h0 : String) (a : Entry) (d : List (String × Entry)) :
    ∀ keys : List String, h0 ∉ keys →
    resolve ((h0, a) :: d) keys = resolve d keys := by
  intro keys
  induction keys with
  | nil =>
    intro _
    rfl
  | cons k ks ih =>
    intro hk
    have h1 : (h0 == k) = false :=
      beq_eq_false_iff_ne.mpr (fun hx => hk (by simp [hx]))
    have hk' : h0 ∉ ks := fun hx => hk (by simp [hx])
    simp only [resolve, List.filterMap_cons]
    have hhead : lookupA k ((h0, a) :: d) = lookupA k d := by
      simp [lookupA, h1]
    rw [hhead]
    have htail := ih hk'
    simp only [resolve] at htail
    rw [htail]

theorem resolve_pairs_self : ∀ (es : List Entry), (es.map hash_entry).Nodup →
    resolve (es.map (fun x => (hash_entry x, x))) (es.map hash_entry) = es := by
  intro es
  induction es with
  | nil =>
    intro _
    rfl
  | cons a rest ih =>
    intro hnd
    rw [List.map_cons, List.nodup_cons] at hnd
    simp only [List.map_cons, resolve, List.filterMap_cons]
    have hhead : lookupA (hash_entry a)
        ((hash_entry a, a) :: rest.map fun x => (hash_entry x, x)) = some a := by
      simp [lookupA]
    rw [hhead]
    have htail := resolve_cons_notin (hash_entry a) a
      (rest.map fun x => (hash_entry x, x)) (rest.map hash_entry) hnd.1
    simp only [resolve] at htail
    rw [htail]
    have hrec := ih hnd.2
    simp only [resolve] at hrec
    rw [hrec]

theorem sortEntries_eq_nil_iff (le : Entry → Entry → Bool) (l : List Entry) :
    sortEntries le l = [] ↔ l = [] := by
  constructor
  · intro h
    have hp : List.Perm (sortEntries le l) l :=
      List.perm_insertionSort (fun a b => le a b = true) l
    rw [h] at hp
    exact hp.symm.eq_nil
  · intro h
    subst h
    rfl

theorem setDiff_eq_nil_iff {k1 k2 : List String} :
    setDiff k1 k2 = [] ↔ ∀ k ∈ k1, k ∈ k2 := by
  unfold setDiff
  rw [List.filter_eq_nil_iff]
  simp [List.elem_iff]

theorem mem_setDiff_left {k : String} {k1 k2 : List String}
    (hk : k ∈ setDiff k1 k2) : k ∈ k1 := by
  unfold setDiff at hk
  exact (List.mem_filter.mp hk).1

theorem resolve_eq_nil_iff {d : List (String × Entry)} {keys : List String}
    (hall : ∀ k ∈ keys, k ∈ keysOf d) :
    resolve d keys = [] ↔ keys = [] := by
  cases keys with
  | nil => simp [resolve]
  | cons k ks =>
    have hs := lookupA_isSome_of_mem (hall k (by simp))
    constructor
    · intro h
      exfalso
      rw [resolve, List.filterMap_cons] at h
      cases hl : lookupA k d with
      | none =>
        rw [hl] at hs
        simp at hs
      | some v =>
        rw [hl] at h
        simp at h
    · intro h
      simp at h

/-- C9: for a non-empty duplicate-free collection `A`,
`excludes_entries(A, A)` returns `False` together with exactly the
records of `A`, sorted by the canonical ordering function. -/
theorem excludes_entries_self_overlap (le : Entry → Entry → Bool) (A : List Entry)
    (hne : A ≠ []) (hdup : (hash_entries A).2 = []) :
    excludes_entries le A A = Except.ok (false, sortEntries le A)
      ∧ List.Perm (sortEntries le A) A := by
  have hnd : (A.map hash_entry).Nodup :=
    (hash_entries_errors_empty_iff_nodup A).mp hdup
  have hidx : (hash_entries A).1 = A.map (fun e => (hash_entry e, e)) := by
    have h := hashLoop_all_fresh A [] [] (by simpa [keysOf] using hnd)
    simpa [hash_entries] using h.1
  refine ⟨?_, List.perm_insertionSort _ _⟩
  have hkeys : keysOf (A.map fun e => (hash_entry e, e)) = A.map hash_entry := by
    simp [keysOf]
  have hint : setInter (A.map hash_entry) (A.map hash_entry) = A.map hash_entry := by
    unfold setInter
    refine List.filter_eq_self.mpr ?_
    intro k hk
    simpa [List.contains] using List.elem_iff.mpr hk
  have hie : (A.map hash_entry).isEmpty = false := by
    rw [List.isEmpty_eq_false]
    simpa using hne
  simp only [excludes_entries, hdup, List.nil_append, hidx, hkeys, hint, hie,
    resolve_pairs_self A hnd]

/-- C10: under duplicate-free inputs, the boolean of `compare_entries` is
true exactly when both returned missing lists are empty. -/
theorem compare_entries_true_iff_no_missing (le : Entry → Entry → Bool)
    (A B : List Entry) (hA : (hash_entries A).2 = []) (hB : (hash_entries B).2 = []) :
    ∃ same m1 m2, compare_entries le A B = Except.ok (same, m1, m2)
      ∧ (same = true ↔ m1 = [] ∧ m2 = []) := by
  refine ⟨(keysOf (hash_entries A).1).all (fun k => (keysOf (hash_entries B).1).contains k)
      && (keysOf (hash_entries B).1).all (fun k => (keysOf (hash_entries A).1).contains k),
    sortEntries le (resolve (hash_entries A).1
      (setDiff (keysOf (hash_entries A).1) (keysOf (hash_entries B).1))),
    sortEntries le (resolve (hash_entries B).1
      (setDiff (keysOf (hash_entries B).1) (keysOf (hash_entries A).1))),
    ?_, ?_⟩
  · simp only [compare_entries, hA, hB, List.nil_append]
  · rw [sortEntries_eq_nil_iff, sortEntries_eq_nil_iff,
      resolve_eq_nil_iff (fun k hk => mem_setDiff_left hk),
      resolve_eq_nil_iff (fun k hk => mem_setDiff_left hk),
      setDiff_eq_nil_iff, setDiff_eq_nil_iff,
      Bool.and_eq_true, List.all_eq_true, List.all_eq_true]
    simp [List.contains, List.elem_iff]

theorem excludes_entries_self_overlap_witness :
    excludes_entries (fun _ _ => true)
        [⟨"T", [("x", .scalar "1")]⟩, ⟨"T", [("x", .scalar "2")]⟩]
        [⟨"T", [("x", .scalar "1")]⟩, ⟨"T", [("x", .scalar "2")]⟩]
      = Except.ok (false, sortEntries (fun _ _ => true)
          [⟨"T", [("x", .scalar "1")]⟩, ⟨"T", [("x", .scalar "2")]⟩])
      ∧ List.Perm (sortEntries (fun _ _ => true)
          [⟨"T", [("x", .scalar "1")]⟩, ⟨"T", [("x", .scalar "2")]⟩])
        [⟨"T", [("x", .scalar "1")]⟩, ⟨"T", [("x", .scalar "2")]⟩] :=
  excludes_entries_self_overlap (fun _ _ => true) _ (by simp) (by rfl)

theorem compare_entries_true_iff_no_missing_witness :
    ∃ same m1 m2, compare_entries (fun _ _ => true)
        [⟨"T", [("x", .scalar "1")]⟩] [⟨"T", [("x", .scalar "2")]⟩]
        = Except.ok (same, m1, m2)
      ∧ (same = true ↔ m1 = [] ∧ m2 = []) :=
  compare_entries_true_iff_no_missing (fun _ _ => true) _ _ (by rfl) (by rfl)

